import Mathlib

/-!
Verification of the EncartesAPI banner registry (Express + Upstash Redis + Cloudinary).

The metadata store keeps three structures (the three Redis keys of
`src/Server.js`, day-rules revision):
  * `active_banners_ordered` — a ZSET mapping banner url to its position score;
  * `banner_day_rules`       — a HASH mapping banner url to a weekday tag or `ALL`;
  * `disabled_banner_urls`   — a SET of disabled banner urls.

We embed the three structures as association lists keyed by url and translate
each route handler of the day-rules revision of `src/Server.js` (duplicated in
`src/unnamed/part_000`) into a pure state-passing function.  The Cloudinary
side is modelled by its observable interface: the result string of
`uploader.destroy` enters destroy as a parameter, and cleanup emits the list of
media-store calls it issues.
-/

namespace EncartesAPI

abbrev Url := String

/-! ### Redis primitives on association lists -/

/-- `ZSCORE key u`: score of the first entry for `u`, if any. -/
def zscore (l : List (Url × Nat)) (u : Url) : Option Nat :=
  match l with
  | [] => none
  | p :: l => if p.1 = u then some p.2 else zscore l u

/-- `ZREM key u`: the list with every entry for `u` removed, paired with the
number of removed members (Redis returns the removal count). -/
def zrem (l : List (Url × Nat)) (u : Url) : List (Url × Nat) × Nat :=
  match l with
  | [] => ([], 0)
  | p :: l =>
    let r := zrem l u
    if p.1 = u then (r.1, r.2 + 1) else (p :: r.1, r.2)

/-- `ZADD key score u`: upsert; returns the updated list and the number of
members that were newly added (0 when the member existed and only its score
changed, exactly as Redis counts). -/
def zadd1 (l : List (Url × Nat)) (u : Url) (s : Nat) : List (Url × Nat) × Nat :=
  match l with
  | [] => ([(u, s)], 1)
  | p :: l =>
    if p.1 = u then ((u, s) :: l, 0)
    else
      let r := zadd1 l u s
      (p :: r.1, r.2)

/-- `ZCARD key`: number of members. -/
def zcard (l : List (Url × Nat)) : Nat := l.length

/-- `HGET key u`. -/
def hget (l : List (Url × String)) (u : Url) : Option String :=
  match l with
  | [] => none
  | p :: l => if p.1 = u then some p.2 else hget l u

/-- `HSET key u v`: upsert of one hash field. -/
def hset (l : List (Url × String)) (u : Url) (v : String) : List (Url × String) :=
  match l with
  | [] => [(u, v)]
  | p :: l => if p.1 = u then (u, v) :: l else p :: hset l u v

/-- `HDEL key u`: deletion of one hash field together with the count of
removed fields. -/
def hdel (l : List (Url × String)) (u : Url) : List (Url × String) × Nat :=
  match l with
  | [] => ([], 0)
  | p :: l =>
    let r := hdel l u
    if p.1 = u then (r.1, r.2 + 1) else (p :: r.1, r.2)

/-- `SISMEMBER key u`. -/
def smem (l : List Url) (u : Url) : Bool :=
  match l with
  | [] => false
  | v :: l => if v = u then true else smem l u

/-- `SADD key u` (idempotent). -/
def sadd (l : List Url) (u : Url) : List Url :=
  if smem l u then l else l ++ [u]

/-- `SREM key u`: removal together with the count of removed members. -/
def srem (l : List Url) (u : Url) : List Url × Nat :=
  match l with
  | [] => ([], 0)
  | v :: l =>
    let r := srem l u
    if v = u then (r.1, r.2 + 1) else (v :: r.1, r.2)

/-! ### The metadata-store state -/

/-- The three Redis keys of the banner registry. -/
structure Store where
  active : List (Url × Nat)
  dayRules : List (Url × String)
  disabled : List Url
deriving DecidableEq, Repr

/-- The state in which none of the three keys exists. -/
def Store.empty : Store := ⟨[], [], []⟩

/-! ### Day-rule constants (`DAYS_MAP`, `validDays` of `src/Server.js`) -/

/-- `DAYS_MAP`: weekday index (0 = Sunday) to weekday tag. -/
def DAYS_MAP (n : Nat) : String :=
  match n with
  | 0 => "SUN"
  | 1 => "MON"
  | 2 => "TUE"
  | 3 => "WED"
  | 4 => "THU"
  | 5 => "FRI"
  | 6 => "SAT"
  | _ => ""

/-- `[...Object.values(DAYS_MAP), ALL]`. -/
def validDays : List String := ["SUN", "MON", "TUE", "WED", "THU", "FRI", "SAT", "ALL"]

/-- ASCII uppercase of one character (the day tags are ASCII). -/
def asciiUpChar (c : Char) : Char :=
  if 'a' ≤ c ∧ c ≤ 'z' then Char.ofNat (c.toNat - 32) else c

/-- JS `toUpperCase()` restricted to ASCII content. -/
def jsToUpper (s : String) : String := String.mk (s.data.map asciiUpChar)

/-- The JS idiom `day ? day.toUpperCase() : "ALL"` — an absent or empty
(falsy) day defaults to `ALL`. -/
def jsDayOrAll (day : Option String) : String :=
  match day with
  | none => "ALL"
  | some d => if d = "" then "ALL" else jsToUpper d

/-- The JS idiom `rules[url] || "ALL"` used when resolving a day rule. -/
def jsOrAll (v : Option String) : String :=
  match v with
  | none => "ALL"
  | some s => if s = "" then "ALL" else s

def CLOUDINARY_FOLDER : String := "banners_folder"

def FOLDER_TAG : String := "banners_tag"

/-! ### Identifier extraction (`extractPublicIdFromUrl`, `src/Server.js` 510-533) -/

/-- JS `String.prototype.split(c)` on character lists: adjacent separators
yield empty segments and the empty string splits to one empty segment. -/
def splitOnChar (c : Char) : List Char → List (List Char)
  | [] => [[]]
  | x :: xs =>
    let r := splitOnChar c xs
    if x = c then [] :: r
    else (x :: r.headD []) :: r.tail

/-- JS `s.substring(0, s.lastIndexOf(c))` for `c = .` — everything before the
last dot, and the empty string when there is no dot (`lastIndexOf` returns -1
and `substring` clamps it to 0). -/
def takeToLastDot (cs : List Char) : List Char :=
  match cs.reverse.dropWhile (fun ch => ch != '.') with
  | [] => []
  | _ :: rest => rest.reverse

/-- `extractPublicIdFromUrl` of `src/Server.js`: split the url on `/`; fail on
fewer than two segments; the file name is the last segment with its extension
stripped; the folder name is the next-to-last segment and must equal
`banners_folder`; the result is `folderName/fileName`. -/
def extractPublicIdFromUrl (url : String) : Option String :=
  let parts := splitOnChar '/' url.data
  if parts.length < 2 then none
  else
    let fileNameWithExt := parts.getLastD []
    let fileName := takeToLastDot fileNameWithExt
    let folderName := parts.getD (parts.length - 2) []
    if folderName ≠ CLOUDINARY_FOLDER.data then none
    else some (String.mk (folderName ++ '/' :: fileName))

/-! ### Route handlers (day-rules revision of `src/Server.js`) -/

inductive CreateOut
  | invalidDay
  | created (position : Nat) (day : String)
deriving DecidableEq, Repr

/-- `POST /api/encarte` (572-620), after a successful Cloudinary upload that
issued `url`: validate the day, read the active cardinality, `ZADD` the url at
that score, `HSET` its day rule, and answer 201 with the position. -/
def createBanner (st : Store) (url : Url) (dayInput : Option String) : Store × CreateOut :=
  let day := jsDayOrAll dayInput
  if day ∉ validDays then (st, .invalidDay)
  else
    let n := zcard st.active
    (⟨(zadd1 st.active url n).1, hset st.dayRules url day, st.disabled⟩, .created n day)

inductive DisableOut
  | missingUrl
  | alreadyDisabled
  | notFound
  | disabledOk
deriving DecidableEq, Repr

/-- `PUT /api/encarte/disable` (691-724): `ZREM` from the active set and
`HDEL` the day rule unconditionally; if the active removal affected zero
members answer 404 (already disabled or not found), otherwise `SADD` to the
disabled set and answer 200. -/
def disableBanner (st : Store) (url : Url) : Store × DisableOut :=
  if url = "" then (st, .missingUrl)
  else
    let ra := zrem st.active url
    let rules := (hdel st.dayRules url).1
    if ra.2 = 0 then
      if smem st.disabled url then (⟨ra.1, rules, st.disabled⟩, .alreadyDisabled)
      else (⟨ra.1, rules, st.disabled⟩, .notFound)
    else (⟨ra.1, rules, sadd st.disabled url⟩, .disabledOk)

inductive EnableOut
  | badRequest
  | alreadyActive
  | notFound
  | enabled (position : Nat) (day : String)
deriving DecidableEq, Repr

/-- `PUT /api/encarte/enable` (730-771): `SREM` from the disabled set; if that
affected zero members answer 404 (already active or not found); otherwise read
the active cardinality, `ZADD` at that score, `HSET` the day rule (default
`ALL`), and answer 200 with the position. -/
def enableBanner (st : Store) (url : Url) (dayInput : Option String) : Store × EnableOut :=
  let targetDay := jsDayOrAll dayInput
  if url = "" ∨ targetDay ∉ validDays then (st, .badRequest)
  else
    let rd := srem st.disabled url
    if rd.2 = 0 then
      if (zscore st.active url).isSome then (⟨st.active, st.dayRules, rd.1⟩, .alreadyActive)
      else (⟨st.active, st.dayRules, rd.1⟩, .notFound)
    else
      let n := zcard st.active
      (⟨(zadd1 st.active url n).1, hset st.dayRules url targetDay, rd.1⟩, .enabled n targetDay)

inductive UpdateDayOut
  | badRequest
  | notFound
  | updated (day : String)
deriving DecidableEq, Repr

/-- `PUT /api/encarte/update-day` (776-804): validate before any store call;
`ZSCORE` to check active membership (404 when absent); then `HSET` only the
day-rule entry. -/
def updateDayBanner (st : Store) (url : Url) (dayInput : Option String) : Store × UpdateDayOut :=
  let targetDay := jsDayOrAll dayInput
  if url = "" ∨ targetDay ∉ validDays then (st, .badRequest)
  else
    match zscore st.active url with
    | none => (st, .notFound)
    | some _ => (⟨st.active, hset st.dayRules url targetDay, st.disabled⟩, .updated targetDay)

/-- The JS `orderedUrls.map((url, index) => (score := index, member := url))`. -/
def enumFrom (i : Nat) : List Url → List (Url × Nat)
  | [] => []
  | u :: us => (u, i) :: enumFrom (i + 1) us

/-- A multi-member `ZADD`, processed left to right; returns the updated list
and the number of newly added members, exactly as Redis counts. -/
def zaddMany (l : List (Url × Nat)) : List (Url × Nat) → List (Url × Nat) × Nat
  | [] => (l, 0)
  | p :: rest =>
    let r := zadd1 l p.1 p.2
    let r2 := zaddMany r.1 rest
    (r2.1, r.2 + r2.2)

inductive ReorderOut
  | nothingToReorder
  | reordered (updatedCount : Nat)
deriving DecidableEq, Repr

/-- `PUT /api/encarte/reorder` (810-840): turn the list into score-member
pairs with the list index as score, answer early on an empty list, otherwise
issue one multi-member `ZADD` and report its return value as `updatedCount`. -/
def reorderBanners (st : Store) (orderedUrls : List Url) : Store × ReorderOut :=
  let updates := enumFrom 0 orderedUrls
  if updates.length = 0 then (st, .nothingToReorder)
  else
    let r := zaddMany st.active updates
    (⟨r.1, st.dayRules, st.disabled⟩, .reordered r.2)

inductive DestroyOut
  | missingUrl
  | notFound
  | removedExtractFailed (redisRemoved : Nat)
  | removedCloudError (cloudinaryStatus : String)
  | removedOk (redisRemoved : Nat) (cloudinaryStatus : String)
deriving DecidableEq, Repr

/-- HTTP status of each destroy response body. -/
def DestroyOut.httpStatus : DestroyOut → Nat
  | .missingUrl => 400
  | .notFound => 404
  | .removedExtractFailed _ => 200
  | .removedCloudError _ => 200
  | .removedOk _ _ => 200

/-- `DELETE /api/encarte` (846-895).  `mediaResult` is the `result` field of
the Cloudinary `uploader.destroy` reply (consulted only when identifier
extraction succeeds).  `ZREM`, `HDEL` and `SREM` always run first; 404 only
when all three removed nothing; a `not found` media result falls through to
the final success body, whose `cloudinaryStatus` field is the literal `ok`;
any other non-`ok` media result is answered 200 with the raw status. -/
def destroyBanner (st : Store) (url : Url) (mediaResult : String) : Store × DestroyOut :=
  if url = "" then (st, .missingUrl)
  else
    let ra := zrem st.active url
    let rh := hdel st.dayRules url
    let rs := srem st.disabled url
    let stAfter : Store := ⟨ra.1, rh.1, rs.1⟩
    let redisRemoved := ra.2 + rs.2
    if redisRemoved = 0 ∧ rh.2 = 0 then (stAfter, .notFound)
    else
      match extractPublicIdFromUrl url with
      | none => (stAfter, .removedExtractFailed redisRemoved)
      | some _ =>
        if mediaResult = "not found" then (stAfter, .removedOk redisRemoved "ok")
        else if mediaResult ≠ "ok" then (stAfter, .removedCloudError mediaResult)
        else (stAfter, .removedOk redisRemoved "ok")

/-! ### The day-filtered listing (`GET /api/encarte`, 625-649) -/

/-- Insertion into a score-sorted list.  Redis breaks score ties
lexicographically by member; the claims under study do not depend on the tie
order, so the model keeps the insertion-order tie-break. -/
def insertByScore (p : Url × Nat) : List (Url × Nat) → List (Url × Nat)
  | [] => [p]
  | q :: l => if p.2 ≤ q.2 then p :: q :: l else q :: insertByScore p l

/-- `ZRANGE key 0 -1 WITHSCORES`: the members sorted by ascending score. -/
def sortByScore : List (Url × Nat) → List (Url × Nat)
  | [] => []
  | p :: l => insertByScore p (sortByScore l)

/-- `getActiveBannersOrdered` (539-562): read the whole active set sorted by
score, read the whole day-rule hash, and resolve each member day rule with
default `ALL`. -/
def getActiveBannersOrdered (st : Store) : List (Url × String × Nat) :=
  (sortByScore st.active).map (fun p => (p.1, jsOrAll (hget st.dayRules p.1), p.2))

/-- JS `new Date().getDay()` as a function of the UTC instant (in minutes
since the epoch) and the server-local UTC offset (in minutes): the weekday
index of the server-local date; the epoch fell on a Thursday (index 4). -/
def jsGetDay (utcMin offsetMin : Int) : Nat :=
  ((((utcMin + offsetMin).fdiv 1440) + 4).emod 7).toNat

/-- The row filter of `GET /api/encarte`: day rule `ALL` or equal to the
weekday tag of today. -/
def dayFilter (todayKey : String) (b : Url × String × Nat) : Bool :=
  b.2.1 == "ALL" || b.2.1 == todayKey

/-- `GET /api/encarte` (625-649): today is taken from `new Date().getDay()`,
hence from the server-local date; the sorted active banners are filtered to
those displayable today and only the urls are returned. -/
def apiGetEncarte (st : Store) (utcMin offsetMin : Int) : List Url :=
  let todayKey := DAYS_MAP (jsGetDay utcMin offsetMin)
  ((getActiveBannersOrdered st).filter (dayFilter todayKey)).map (fun b => b.1)

/-! ### Scheduled cleanup (`performDailyCleanup`, `src/unnamed/part_001` 656-707) -/

inductive MediaOp
  | deleteByTag (tag : String)
deriving DecidableEq, Repr

structure CleanupResult where
  finalState : Store
  mediaCalls : List MediaOp
  redisKeysDeleted : Nat
deriving DecidableEq, Repr

/-- `performDailyCleanup`: one bulk `delete_resources_by_tag` call to the
media store, then `DEL` of each of the three metadata keys in turn (Redis
`DEL` returns 1 exactly when the key existed, i.e. the structure was
non-empty). -/
def performDailyCleanup (st : Store) : CleanupResult :=
  let activeDeleted := if st.active.isEmpty then 0 else 1
  let dayRulesDeleted := if st.dayRules.isEmpty then 0 else 1
  let disabledDeleted := if st.disabled.isEmpty then 0 else 1
  ⟨Store.empty, [MediaOp.deleteByTag FOLDER_TAG],
    activeDeleted + dayRulesDeleted + disabledDeleted⟩

/-! ### Lemmas about the store primitives -/

theorem zscore_zrem_self (l : List (Url × Nat)) (u : Url) : zscore (zrem l u).1 u = none := by
  induction l with
  | nil => rfl
  | cons p l ih => by_cases h : p.1 = u <;> simp [zrem, zscore, h, ih]

theorem zscore_zrem_other (l : List (Url × Nat)) (u v : Url) (hvu : v ≠ u) :
    zscore (zrem l u).1 v = zscore l v := by
  have huv := Ne.symm hvu
  induction l with
  | nil => rfl
  | cons p l ih =>
    by_cases h : p.1 = u
    · simp [zrem, zscore, h, huv, ih]
    · by_cases h2 : p.1 = v <;> simp [zrem, zscore, h, h2, hvu, ih]

theorem zrem_snd_eq_zero (l : List (Url × Nat)) (u : Url) :
    (zrem l u).2 = 0 ↔ zscore l u = none := by
  induction l with
  | nil => simp [zrem, zscore]
  | cons p l ih => by_cases h : p.1 = u <;> simp [zrem, zscore, h, ih]

theorem zrem_of_absent (l : List (Url × Nat)) (u : Url) (h : zscore l u = none) :
    (zrem l u).1 = l := by
  induction l with
  | nil => rfl
  | cons p l ih =>
    by_cases hp : p.1 = u
    · simp [zscore, hp] at h
    · simp [zscore, hp] at h
      simp [zrem, hp, ih h]

theorem zscore_zadd1_self (l : List (Url × Nat)) (u : Url) (s : Nat) :
    zscore (zadd1 l u s).1 u = some s := by
  induction l with
  | nil => simp [zadd1, zscore]
  | cons p l ih => by_cases h : p.1 = u <;> simp [zadd1, zscore, h, ih]

theorem zscore_zadd1_other (l : List (Url × Nat)) (u v : Url) (s : Nat) (hvu : v ≠ u) :
    zscore (zadd1 l u s).1 v = zscore l v := by
  have huv := Ne.symm hvu
  induction l with
  | nil => simp [zadd1, zscore, huv]
  | cons p l ih =>
    by_cases h : p.1 = u
    · simp [zadd1, zscore, h, huv, ih]
    · by_cases h2 : p.1 = v <;> simp [zadd1, zscore, h, h2, hvu, ih]

theorem zadd1_snd (l : List (Url × Nat)) (u : Url) (s : Nat) :
    (zadd1 l u s).2 = if zscore l u = none then 1 else 0 := by
  induction l with
  | nil => simp [zadd1, zscore]
  | cons p l ih => by_cases h : p.1 = u <;> simp [zadd1, zscore, h, ih]

theorem zscore_isSome_iff (l : List (Url × Nat)) (u : Url) :
    (zscore l u).isSome = true ↔ ∃ s, (u, s) ∈ l := by
  induction l with
  | nil => simp [zscore]
  | cons p l ih =>
    by_cases h : p.1 = u
    · subst h
      simp [zscore]
      exact ⟨p.2, Or.inl rfl⟩
    · simp [zscore, h, ih]
      constructor
      · intro ⟨s, hs⟩; exact ⟨s, Or.inr hs⟩
      · rintro ⟨s, hs | hs⟩
        · exact absurd (congrArg Prod.fst hs).symm h
        · exact ⟨s, hs⟩

theorem hget_hset_self (l : List (Url × String)) (u : Url) (v : String) :
    hget (hset l u v) u = some v := by
  induction l with
  | nil => simp [hset, hget]
  | cons p l ih => by_cases h : p.1 = u <;> simp [hset, hget, h, ih]

theorem hget_hset_other (l : List (Url × String)) (u w : Url) (v : String) (hwu : w ≠ u) :
    hget (hset l u v) w = hget l w := by
  have huw := Ne.symm hwu
  induction l with
  | nil => simp [hset, hget, huw]
  | cons p l ih =>
    by_cases h : p.1 = u
    · simp [hset, hget, h, huw, ih]
    · by_cases h2 : p.1 = w <;> simp [hset, hget, h, h2, hwu, ih]

theorem hget_hdel_self (l : List (Url × String)) (u : Url) : hget (hdel l u).1 u = none := by
  induction l with
  | nil => rfl
  | cons p l ih => by_cases h : p.1 = u <;> simp [hdel, hget, h, ih]

theorem hget_hdel_other (l : List (Url × String)) (u w : Url) (hwu : w ≠ u) :
    hget (hdel l u).1 w = hget l w := by
  induction l with
  | nil => rfl
  | cons p l ih =>
    have huw := Ne.symm hwu
    by_cases h : p.1 = u
    · simp [hdel, hget, h, huw, ih]
    · by_cases h2 : p.1 = w <;> simp [hdel, hget, h, h2, hwu, ih]

theorem hdel_snd_eq_zero (l : List (Url × String)) (u : Url) :
    (hdel l u).2 = 0 ↔ hget l u = none := by
  induction l with
  | nil => simp [hdel, hget]
  | cons p l ih => by_cases h : p.1 = u <;> simp [hdel, hget, h, ih]

theorem smem_sadd_self (l : List Url) (u : Url) : smem (sadd l u) u = true := by
  by_cases h : smem l u
  · simp [sadd, h]
  · simp [sadd, h]
    induction l with
    | nil => simp [smem]
    | cons v l ih =>
      simp [smem] at h ⊢
      by_cases h2 : v = u <;> simp_all [smem]

theorem smem_sadd_other (l : List Url) (u w : Url) (hwu : w ≠ u) :
    smem (sadd l u) w = smem l w := by
  have huw := Ne.symm hwu
  by_cases h : smem l u
  · simp [sadd, h]
  · simp [sadd, h]
    induction l with
    | nil => simp [smem, huw]
    | cons v l ih =>
      simp [smem] at h ⊢
      by_cases h2 : v = w <;> simp_all [smem]

theorem smem_srem_self (l : List Url) (u : Url) : smem (srem l u).1 u = false := by
  induction l with
  | nil => rfl
  | cons v l ih => by_cases h : v = u <;> simp [srem, smem, h, ih]

theorem smem_srem_other (l : List Url) (u w : Url) (hwu : w ≠ u) :
    smem (srem l u).1 w = smem l w := by
  induction l with
  | nil => rfl
  | cons v l ih =>
    have huw := Ne.symm hwu
    by_cases h : v = u
    · simp [srem, smem, h, huw, ih]
    · by_cases h2 : v = w <;> simp [srem, smem, h, h2, hwu, ih]

theorem srem_snd_eq_zero (l : List Url) (u : Url) :
    (srem l u).2 = 0 ↔ smem l u = false := by
  induction l with
  | nil => simp [srem, smem]
  | cons v l ih => by_cases h : v = u <;> simp [srem, smem, h, ih]

theorem srem_of_absent (l : List Url) (u : Url) (h : smem l u = false) : (srem l u).1 = l := by
  induction l with
  | nil => rfl
  | cons v l ih =>
    by_cases hv : v = u
    · simp [smem, hv] at h
    · simp [smem, hv] at h
      simp [srem, hv, ih h]

theorem mem_insertByScore (p q : Url × Nat) (l : List (Url × Nat)) :
    q ∈ insertByScore p l ↔ q = p ∨ q ∈ l := by
  induction l with
  | nil => simp [insertByScore]
  | cons r l ih =>
    by_cases h : p.2 ≤ r.2
    · simp [insertByScore, h]
    · simp [insertByScore, h, ih]
      tauto

theorem mem_sortByScore (p : Url × Nat) (l : List (Url × Nat)) :
    p ∈ sortByScore l ↔ p ∈ l := by
  induction l with
  | nil => simp [sortByScore]
  | cons q l ih => simp [sortByScore, mem_insertByScore, ih]

theorem insertByScore_pairwise (p : Url × Nat) (l : List (Url × Nat))
    (h : l.Pairwise (fun a b => a.2 ≤ b.2)) :
    (insertByScore p l).Pairwise (fun a b => a.2 ≤ b.2) := by
  induction l with
  | nil => simp [insertByScore]
  | cons q l ih =>
    rcases List.pairwise_cons.mp h with ⟨hq, hl⟩
    by_cases hle : p.2 ≤ q.2
    · simp only [insertByScore, if_pos hle]
      refine List.pairwise_cons.mpr ⟨?_, h⟩
      intro r hr
      rcases List.mem_cons.mp hr with hr | hr
      · exact hle.trans (le_of_eq (by rw [hr]))
      · exact hle.trans (hq r hr)
    · simp only [insertByScore, if_neg hle]
      refine List.pairwise_cons.mpr ⟨?_, ih hl⟩
      intro r hr
      rcases (mem_insertByScore p r l).mp hr with hr | hr
      · exact hr ▸ le_of_not_le hle
      · exact hq r hr

theorem sortByScore_pairwise (l : List (Url × Nat)) :
    (sortByScore l).Pairwise (fun a b => a.2 ≤ b.2) := by
  induction l with
  | nil => simp [sortByScore]
  | cons p l ih => exact insertByScore_pairwise p (sortByScore l) ih

theorem enumFrom_map_fst (us : List Url) : ∀ i, (enumFrom i us).map Prod.fst = us := by
  induction us with
  | nil => intro i; rfl
  | cons u us ih => intro i; simp [enumFrom, ih]

theorem enumFrom_length (us : List Url) : ∀ i, (enumFrom i us).length = us.length := by
  induction us with
  | nil => intro i; rfl
  | cons u us ih => intro i; simp [enumFrom, ih]

theorem get_mem_enumFrom (us : List Url) :
    ∀ i j (hj : j < us.length), (us.get ⟨j, hj⟩, i + j) ∈ enumFrom i us := by
  induction us with
  | nil => intro i j hj; exact absurd hj (Nat.not_lt_zero j)
  | cons u us ih =>
    intro i j hj
    cases j with
    | zero => simp [enumFrom]
    | succ j =>
      have := ih (i + 1) j (Nat.lt_of_succ_lt_succ hj)
      simp only [enumFrom, List.mem_cons]
      right
      have harith : i + 1 + j = i + (j + 1) := by omega
      rw [← harith]
      exact this

theorem zaddMany_zscore_of_not_key (ups : List (Url × Nat)) :
    ∀ (l : List (Url × Nat)) (u : Url), u ∉ ups.map Prod.fst →
      zscore (zaddMany l ups).1 u = zscore l u := by
  induction ups with
  | nil => intro l u _; rfl
  | cons p rest ih =>
    intro l u hu
    simp only [List.map_cons, List.mem_cons] at hu
    push_neg at hu
    simp only [zaddMany]
    rw [ih _ u hu.2, zscore_zadd1_other l p.1 u p.2 hu.1]

theorem zaddMany_zscore_of_key (ups : List (Url × Nat)) :
    ∀ (l : List (Url × Nat)), (ups.map Prod.fst).Nodup →
      ∀ p ∈ ups, zscore (zaddMany l ups).1 p.1 = some p.2 := by
  induction ups with
  | nil => intro l _ p hp; exact absurd hp (List.not_mem_nil p)
  | cons q rest ih =>
    intro l hnd p hp
    simp only [List.map_cons, List.nodup_cons] at hnd
    rcases List.mem_cons.mp hp with hp | hp
    · subst hp
      simp only [zaddMany]
      rw [zaddMany_zscore_of_not_key rest _ p.1 hnd.1]
      exact zscore_zadd1_self l p.1 p.2
    · simp only [zaddMany]
      exact ih _ hnd.2 p hp

theorem zaddMany_snd (ups : List (Url × Nat)) :
    ∀ (l : List (Url × Nat)), (ups.map Prod.fst).Nodup →
      (zaddMany l ups).2 = (ups.filter (fun p => (zscore l p.1).isNone)).length := by
  induction ups with
  | nil => intro l _; rfl
  | cons q rest ih =>
    intro l hnd
    simp only [List.map_cons, List.nodup_cons] at hnd
    simp only [zaddMany]
    have hrest : (zaddMany (zadd1 l q.1 q.2).1 rest).2
        = (rest.filter (fun p => (zscore l p.1).isNone)).length := by
      rw [ih _ hnd.2]
      congr 1
      apply List.filter_congr
      intro p hp
      have hne : p.1 ≠ q.1 := by
        intro hc
        exact hnd.1 (hc ▸ List.mem_map_of_mem Prod.fst hp)
      rw [zscore_zadd1_other l q.1 p.1 q.2 hne]
    rw [hrest, zadd1_snd]
    cases hq : zscore l q.1 with
    | none => simp [List.filter_cons, hq, Option.isNone, Nat.add_comm]
    | some s => simp [List.filter_cons, hq, Option.isNone]

theorem dropWhile_at_dot (l : List Char) (h : '.' ∈ l) :
    ∃ t, l.dropWhile (fun ch => ch != '.') = '.' :: t
      ∧ '.' ∉ l.takeWhile (fun ch => ch != '.') := by
  induction l with
  | nil => exact absurd h (List.not_mem_nil '.')
  | cons a l ih =>
    by_cases ha : a = '.'
    · subst ha
      refine ⟨l, ?_, ?_⟩
      · simp
      · simp
    · have hl : '.' ∈ l := by
        rcases List.mem_cons.mp h with hc | hc
        · exact absurd hc.symm ha
        · exact hc
      obtain ⟨t, hd, ht⟩ := ih hl
      have hpa : (a != '.') = true := by simp [ha]
      refine ⟨t, ?_, ?_⟩
      · have h2 : List.dropWhile (fun ch => ch != '.') (a :: l)
            = List.dropWhile (fun ch => ch != '.') l := by
          simp [List.dropWhile_cons, hpa]
        rw [h2]; exact hd
      · have h2 : List.takeWhile (fun ch => ch != '.') (a :: l)
            = a :: List.takeWhile (fun ch => ch != '.') l := by
          simp [List.takeWhile_cons, hpa]
        rw [h2]
        intro hc
        rcases List.mem_cons.mp hc with hc | hc
        · exact ha hc.symm
        · exact ht hc

/-- Decomposition behind `substring(0, lastIndexOf(.))`: when a segment
contains a dot, it is the stripped part, a dot, and a dot-free extension. -/
theorem takeToLastDot_decomp (cs : List Char) (h : '.' ∈ cs) :
    ∃ ext, ('.' ∉ ext) ∧ cs = takeToLastDot cs ++ '.' :: ext := by
  obtain ⟨t, hd, ht⟩ := dropWhile_at_dot cs.reverse (List.mem_reverse.mpr h)
  refine ⟨(cs.reverse.takeWhile (fun ch => ch != '.')).reverse, ?_, ?_⟩
  · intro hc
    exact ht (List.mem_reverse.mp hc)
  · have hsplit : cs.reverse.takeWhile (fun ch => ch != '.')
        ++ cs.reverse.dropWhile (fun ch => ch != '.') = cs.reverse :=
      List.takeWhile_append_dropWhile (fun ch => ch != '.') cs.reverse
    have htl : takeToLastDot cs = t.reverse := by
      simp [takeToLastDot, hd]
    rw [htl]
    conv_lhs => rw [← List.reverse_reverse cs, ← hsplit, hd]
    simp

theorem takeToLastDot_of_no_dot (cs : List Char) (h : '.' ∉ cs) : takeToLastDot cs = [] := by
  have : cs.reverse.dropWhile (fun ch => ch != '.') = [] := by
    rw [List.dropWhile_eq_nil_iff]
    intro x hx
    simp
    intro hc
    exact absurd (List.mem_reverse.mp (hc ▸ hx)) h
  simp [takeToLastDot, this]

/-! ### Concrete states used by witnesses and counterexamples -/

def urlA : Url := "https://x/banners_folder/a.png"

def urlB : Url := "https://x/banners_folder/b.png"

/-! ### Claim theorems -/

/-- C8: the full-wipe cleanup issues a single bulk media-store delete by tag
and deletes the active ordered-set key, the disabled set key, and the
day-rule map key, so that afterwards every one of the three metadata
structures is empty. -/
theorem cleanup_wipes_all_three_keys (st : Store) :
    (performDailyCleanup st).finalState.active = [] ∧
    (performDailyCleanup st).finalState.dayRules = [] ∧
    (performDailyCleanup st).finalState.disabled = [] ∧
    (performDailyCleanup st).mediaCalls = [MediaOp.deleteByTag FOLDER_TAG] ∧
    (performDailyCleanup st).mediaCalls.length = 1 :=
  ⟨rfl, rfl, rfl, rfl, rfl⟩

/-- C5: when the active-set removal affected zero members, disable fails with
AlreadyDisabled exactly when the url sits in the disabled set and NotFound
otherwise; when it affected at least one member, disable adds the url to the
disabled set, removes it from the active set, and reports success. -/
theorem disable_error_and_success_paths (st : Store) (url : Url) (h : url ≠ "") :
    ((zrem st.active url).2 = 0 → smem st.disabled url = true →
       (disableBanner st url).2 = DisableOut.alreadyDisabled) ∧
    ((zrem st.active url).2 = 0 → smem st.disabled url = false →
       (disableBanner st url).2 = DisableOut.notFound) ∧
    ((zrem st.active url).2 ≠ 0 →
       (disableBanner st url).2 = DisableOut.disabledOk ∧
       smem (disableBanner st url).1.disabled url = true ∧
       zscore (disableBanner st url).1.active url = none) := by
  refine ⟨?_, ?_, ?_⟩
  · intro h1 h2
    simp [disableBanner, h, h1, h2]
  · intro h1 h2
    simp [disableBanner, h, h1, h2]
  · intro h1
    simp [disableBanner, h, h1, smem_sadd_self, zscore_zrem_self]

theorem disable_error_and_success_paths_witness :
    (disableBanner ⟨[(urlA, 0)], [(urlA, "ALL")], [urlB]⟩ urlA).2 = DisableOut.disabledOk ∧
    smem (disableBanner ⟨[(urlA, 0)], [(urlA, "ALL")], [urlB]⟩ urlA).1.disabled urlA = true ∧
    zscore (disableBanner ⟨[(urlA, 0)], [(urlA, "ALL")], [urlB]⟩ urlA).1.active urlA = none ∧
    (disableBanner ⟨[(urlA, 0)], [(urlA, "ALL")], [urlB]⟩ urlB).2 = DisableOut.alreadyDisabled ∧
    (disableBanner ⟨[(urlA, 0)], [(urlA, "ALL")], [urlB]⟩ "c").2 = DisableOut.notFound := by
  have h1 := disable_error_and_success_paths ⟨[(urlA, 0)], [(urlA, "ALL")], [urlB]⟩ urlA
    (by decide)
  have h2 := disable_error_and_success_paths ⟨[(urlA, 0)], [(urlA, "ALL")], [urlB]⟩ urlB
    (by decide)
  have h3 := disable_error_and_success_paths ⟨[(urlA, 0)], [(urlA, "ALL")], [urlB]⟩ "c"
    (by decide)
  have hs := h1.2.2 (by decide)
  exact ⟨hs.1, hs.2.1, hs.2.2, h2.1 (by decide) (by decide), h3.2.1 (by decide) (by decide)⟩

/-- C9: for a url absent from the active set, disable answers an error
(AlreadyDisabled or NotFound), yet the day-rule entry for that url has been
deleted by the time the error is returned; when such an entry existed the
store state is therefore not left unchanged. -/
theorem disable_error_path_deletes_day_rule (st : Store) (url : Url) (h : url ≠ "")
    (h2 : zscore st.active url = none) :
    ((disableBanner st url).2 = DisableOut.alreadyDisabled ∨
       (disableBanner st url).2 = DisableOut.notFound) ∧
    hget (disableBanner st url).1.dayRules url = none ∧
    (disableBanner st url).1.dayRules = (hdel st.dayRules url).1 ∧
    ((hget st.dayRules url).isSome = true → (disableBanner st url).1 ≠ st) := by
  have h0 : (zrem st.active url).2 = 0 := (zrem_snd_eq_zero _ _).mpr h2
  have hstate : (disableBanner st url).1
      = ⟨(zrem st.active url).1, (hdel st.dayRules url).1, st.disabled⟩ := by
    by_cases hd : smem st.disabled url <;> simp [disableBanner, h, h0, hd]
  have hout : (disableBanner st url).2 = DisableOut.alreadyDisabled ∨
      (disableBanner st url).2 = DisableOut.notFound := by
    by_cases hd : smem st.disabled url <;> simp [disableBanner, h, h0, hd]
  refine ⟨hout, ?_, ?_, ?_⟩
  · rw [hstate]
    exact hget_hdel_self st.dayRules url
  · rw [hstate]
  · intro hsome hc
    have hdr : (hdel st.dayRules url).1 = st.dayRules := by
      have := congrArg Store.dayRules hc
      rw [hstate] at this
      simpa using this
    have : hget st.dayRules url = none := by
      rw [← hdr]
      exact hget_hdel_self st.dayRules url
    rw [this] at hsome
    simp at hsome

theorem disable_error_path_deletes_day_rule_witness :
    ((disableBanner ⟨[], [(urlA, "MON")], []⟩ urlA).2 = DisableOut.alreadyDisabled ∨
       (disableBanner ⟨[], [(urlA, "MON")], []⟩ urlA).2 = DisableOut.notFound) ∧
    hget (disableBanner ⟨[], [(urlA, "MON")], []⟩ urlA).1.dayRules urlA = none ∧
    (disableBanner ⟨[], [(urlA, "MON")], []⟩ urlA).1 ≠ ⟨[], [(urlA, "MON")], []⟩ := by
  have h := disable_error_path_deletes_day_rule ⟨[], [(urlA, "MON")], []⟩ urlA
    (by decide) (by decide)
  exact ⟨h.1, h.2.1, h.2.2.2 (by decide)⟩

/-- C6: updateDay validates the day against the closed set of weekday tags
plus ALL and fails before any store write on an invalid day; it fails
NotFound when the url is not in the active set, again leaving the state
unchanged; and on success it changes only the day-rule entry of that url,
leaving the active ordered-set (hence the position), the disabled set, and
the day rules of every other url unchanged. -/
theorem updateDay_validates_and_frames (st : Store) (url : Url) (day : Option String) :
    (url ≠ "" → jsDayOrAll day ∉ validDays →
       updateDayBanner st url day = (st, UpdateDayOut.badRequest)) ∧
    (url ≠ "" → jsDayOrAll day ∈ validDays → zscore st.active url = none →
       updateDayBanner st url day = (st, UpdateDayOut.notFound)) ∧
    (url ≠ "" → jsDayOrAll day ∈ validDays → ∀ s, zscore st.active url = some s →
       (updateDayBanner st url day).2 = UpdateDayOut.updated (jsDayOrAll day) ∧
       (updateDayBanner st url day).1.active = st.active ∧
       (updateDayBanner st url day).1.disabled = st.disabled ∧
       hget (updateDayBanner st url day).1.dayRules url = some (jsDayOrAll day) ∧
       (∀ v, v ≠ url →
          hget (updateDayBanner st url day).1.dayRules v = hget st.dayRules v)) := by
  refine ⟨?_, ?_, ?_⟩
  · intro h1 h2
    simp [updateDayBanner, h1, h2]
  · intro h1 h2 h3
    simp [updateDayBanner, h1, h2, h3]
  · intro h1 h2 s h3
    simp [updateDayBanner, h1, h2, h3, hget_hset_self]
    intro v hv
    exact hget_hset_other st.dayRules url v (jsDayOrAll day) hv

theorem updateDay_validates_and_frames_witness :
    updateDayBanner ⟨[(urlA, 0)], [(urlA, "ALL")], [urlB]⟩ urlA (some "XYZ")
      = (⟨[(urlA, 0)], [(urlA, "ALL")], [urlB]⟩, UpdateDayOut.badRequest) ∧
    updateDayBanner ⟨[(urlA, 0)], [(urlA, "ALL")], [urlB]⟩ "c" (some "TUE")
      = (⟨[(urlA, 0)], [(urlA, "ALL")], [urlB]⟩, UpdateDayOut.notFound) ∧
    (updateDayBanner ⟨[(urlA, 0)], [(urlA, "ALL")], [urlB]⟩ urlA (some "TUE")).2
      = UpdateDayOut.updated "TUE" ∧
    (updateDayBanner ⟨[(urlA, 0)], [(urlA, "ALL")], [urlB]⟩ urlA (some "TUE")).1.active
      = [(urlA, 0)] ∧
    (updateDayBanner ⟨[(urlA, 0)], [(urlA, "ALL")], [urlB]⟩ urlA (some "TUE")).1.disabled
      = [urlB] ∧
    hget (updateDayBanner ⟨[(urlA, 0)], [(urlA, "ALL")], [urlB]⟩ urlA (some "TUE")).1.dayRules
      urlA = some "TUE" := by
  have hday : jsDayOrAll (some "TUE") = "TUE" := by decide
  have hbad := (updateDay_validates_and_frames ⟨[(urlA, 0)], [(urlA, "ALL")], [urlB]⟩
    urlA (some "XYZ")).1 (by decide) (by decide)
  have hnf := (updateDay_validates_and_frames ⟨[(urlA, 0)], [(urlA, "ALL")], [urlB]⟩
    "c" (some "TUE")).2.1 (by decide) (by decide) (by decide)
  have hok := (updateDay_validates_and_frames ⟨[(urlA, 0)], [(urlA, "ALL")], [urlB]⟩
    urlA (some "TUE")).2.2 (by decide) (by decide) 0 (by decide)
  rw [hday] at hok
  exact ⟨hbad, hnf, hok.1, hok.2.1, hok.2.2.1, hok.2.2.2.1⟩

/-- C3: a successful create and a successful enable both assign the new
position as the cardinality of the active ordered-set read immediately before
the insertion, set the day rule (default `ALL`), and return that position to
the caller. -/
theorem create_enable_assign_position_cardinality (st : Store) (url : Url)
    (day : Option String) (hday : jsDayOrAll day ∈ validDays) (hurl : url ≠ "")
    (hdis : smem st.disabled url = true) :
    (createBanner st url day).2 = CreateOut.created (zcard st.active) (jsDayOrAll day) ∧
    zscore (createBanner st url day).1.active url = some (zcard st.active) ∧
    hget (createBanner st url day).1.dayRules url = some (jsDayOrAll day) ∧
    (enableBanner st url day).2 = EnableOut.enabled (zcard st.active) (jsDayOrAll day) ∧
    zscore (enableBanner st url day).1.active url = some (zcard st.active) ∧
    hget (enableBanner st url day).1.dayRules url = some (jsDayOrAll day) ∧
    jsDayOrAll none = "ALL" := by
  have hsr : (srem st.disabled url).2 ≠ 0 := by
    intro hc
    rw [(srem_snd_eq_zero st.disabled url).mp hc] at hdis
    exact Bool.false_ne_true hdis
  refine ⟨?_, ?_, ?_, ?_, ?_, ?_, rfl⟩
  · simp [createBanner, hday]
  · simp [createBanner, hday, zscore_zadd1_self]
  · simp [createBanner, hday, hget_hset_self]
  · simp [enableBanner, hday, hurl, hsr]
  · simp [enableBanner, hday, hurl, hsr, zscore_zadd1_self]
  · simp [enableBanner, hday, hurl, hsr, hget_hset_self]

theorem create_enable_assign_position_cardinality_witness :
    (createBanner ⟨[(urlB, 0)], [(urlB, "ALL")], [urlA]⟩ urlA (some "FRI")).2
      = CreateOut.created 1 "FRI" ∧
    zscore (createBanner ⟨[(urlB, 0)], [(urlB, "ALL")], [urlA]⟩ urlA (some "FRI")).1.active
      urlA = some 1 ∧
    (enableBanner ⟨[(urlB, 0)], [(urlB, "ALL")], [urlA]⟩ urlA none).2
      = EnableOut.enabled 1 "ALL" ∧
    zscore (enableBanner ⟨[(urlB, 0)], [(urlB, "ALL")], [urlA]⟩ urlA none).1.active
      urlA = some 1 ∧
    hget (enableBanner ⟨[(urlB, 0)], [(urlB, "ALL")], [urlA]⟩ urlA none).1.dayRules
      urlA = some "ALL" := by
  have hfri : jsDayOrAll (some "FRI") = "FRI" := by decide
  have h1 := create_enable_assign_position_cardinality
    ⟨[(urlB, 0)], [(urlB, "ALL")], [urlA]⟩ urlA (some "FRI") (by decide) (by decide) (by decide)
  have h2 := create_enable_assign_position_cardinality
    ⟨[(urlB, 0)], [(urlB, "ALL")], [urlA]⟩ urlA none (by decide) (by decide) (by decide)
  rw [hfri] at h1
  exact ⟨h1.1, h1.2.1, h2.2.2.2.1, h2.2.2.2.2.1, h2.2.2.2.2.2.1⟩

theorem length_filter_enumFrom (q : Url → Bool) (us : List Url) :
    ∀ i, ((enumFrom i us).filter (fun p => q p.1)).length = (us.filter q).length := by
  induction us with
  | nil => intro i; rfl
  | cons u us ih =>
    intro i
    by_cases hq : q u <;> simp [enumFrom, List.filter_cons, hq, ih]

/-- C10: for a non-empty duplicate-free list, reorder writes every provided
url into the active ordered-set with score equal to its index, regardless of
prior membership in the active set, the disabled set, or neither (the
disabled set and day-rule map are untouched, so a disabled url ends up in
both structures), and the reported updatedCount is the ZADD return value:
the number of provided urls that were newly added, not the number whose
position changed. -/
theorem reorder_overwrites_scores_and_counts_added (st : Store) (urls : List Url)
    (hne : urls ≠ []) (hnd : urls.Nodup) :
    (∀ j (hj : j < urls.length),
       zscore (reorderBanners st urls).1.active (urls.get ⟨j, hj⟩) = some j) ∧
    (reorderBanners st urls).1.dayRules = st.dayRules ∧
    (reorderBanners st urls).1.disabled = st.disabled ∧
    (reorderBanners st urls).2
      = ReorderOut.reordered
          ((urls.filter (fun u => (zscore st.active u).isNone)).length) := by
  have hlen : (enumFrom 0 urls).length ≠ 0 := by
    rw [enumFrom_length]
    intro hc
    exact hne (List.length_eq_zero.mp hc)
  have hkeys : (enumFrom 0 urls).map Prod.fst = urls := enumFrom_map_fst urls 0
  have hndk : ((enumFrom 0 urls).map Prod.fst).Nodup := by rw [hkeys]; exact hnd
  refine ⟨?_, ?_, ?_, ?_⟩
  · intro j hj
    have hmem : (urls.get ⟨j, hj⟩, j) ∈ enumFrom 0 urls := by
      have := get_mem_enumFrom urls 0 j hj
      rwa [Nat.zero_add] at this
    have := zaddMany_zscore_of_key (enumFrom 0 urls) st.active hndk
      (urls.get ⟨j, hj⟩, j) hmem
    simpa [reorderBanners, hlen] using this
  · simp [reorderBanners, hlen]
  · simp [reorderBanners, hlen]
  · have hcnt := zaddMany_snd (enumFrom 0 urls) st.active hndk
    have hfl := length_filter_enumFrom (fun u => (zscore st.active u).isNone) urls 0
    simp only [reorderBanners]
    rw [if_neg hlen]
    simp only [hcnt, hfl]

theorem reorder_overwrites_scores_and_counts_added_witness :
    zscore (reorderBanners ⟨[(urlA, 0)], [], [urlB]⟩ [urlB, urlA]).1.active urlB = some 0 ∧
    zscore (reorderBanners ⟨[(urlA, 0)], [], [urlB]⟩ [urlB, urlA]).1.active urlA = some 1 ∧
    (reorderBanners ⟨[(urlA, 0)], [], [urlB]⟩ [urlB, urlA]).1.disabled = [urlB] ∧
    (reorderBanners ⟨[(urlA, 0)], [], [urlB]⟩ [urlB, urlA]).2 = ReorderOut.reordered 1 := by
  have h := reorder_overwrites_scores_and_counts_added ⟨[(urlA, 0)], [], [urlB]⟩
    [urlB, urlA] (by decide) (by decide)
  have h0 := h.1 0 (by decide)
  have h1 := h.1 1 (by decide)
  refine ⟨h0, h1, h.2.2.1, ?_⟩
  have hx := h.2.2.2
  have hy : (([urlB, urlA] : List Url).filter
      (fun u => (zscore ([(urlA, 0)] : List (Url × Nat)) u).isNone)).length = 1 := by decide
  rw [hy] at hx
  exact hx

/-- The exclusivity invariant of the spec: no url is simultaneously a member
of the active ordered-set and of the disabled set. -/
def Consistent (st : Store) : Prop :=
  ∀ u, ¬((zscore st.active u).isSome = true ∧ smem st.disabled u = true)

theorem consistent_after (st : Store) (url : Url) (a : List (Url × Nat)) (d : List Url)
    (h : Consistent st)
    (hself : zscore a url = none ∨ smem d url = false)
    (hactive : ∀ v, v ≠ url → zscore a v = zscore st.active v)
    (hdis : ∀ v, v ≠ url → smem d v = smem st.disabled v) :
    ∀ u, ¬((zscore a u).isSome = true ∧ smem d u = true) := by
  intro u
  by_cases hu : u = url
  · subst hu
    rintro ⟨ha, hb⟩
    rcases hself with hs | hs
    · rw [hs] at ha
      simp at ha
    · rw [hs] at hb
      exact Bool.false_ne_true hb
  · rintro ⟨ha, hb⟩
    exact h u ⟨by rwa [hactive u hu] at ha, by rwa [hdis u hu] at hb⟩

theorem disable_preserves_consistency (st : Store) (url : Url) (h : Consistent st) :
    Consistent (disableBanner st url).1 := by
  by_cases h0 : url = ""
  · simpa [disableBanner, h0] using h
  · have hstate : (disableBanner st url).1.active = (zrem st.active url).1 ∧
        ((disableBanner st url).1.disabled = st.disabled ∨
         (disableBanner st url).1.disabled = sadd st.disabled url) := by
      by_cases hr : (zrem st.active url).2 = 0
      · by_cases hd : smem st.disabled url <;> simp [disableBanner, h0, hr, hd]
      · simp [disableBanner, h0, hr]
    intro u
    rw [hstate.1]
    rcases hstate.2 with hd | hd <;> rw [hd]
    · exact consistent_after st url (zrem st.active url).1 st.disabled h
        (Or.inl (zscore_zrem_self st.active url))
        (fun v hv => zscore_zrem_other st.active url v hv)
        (fun v hv => rfl) u
    · exact consistent_after st url (zrem st.active url).1 (sadd st.disabled url) h
        (Or.inl (zscore_zrem_self st.active url))
        (fun v hv => zscore_zrem_other st.active url v hv)
        (fun v hv => smem_sadd_other st.disabled url v hv) u

theorem enable_preserves_consistency (st : Store) (url : Url) (day : Option String)
    (h : Consistent st) : Consistent (enableBanner st url day).1 := by
  by_cases h0 : url = "" ∨ jsDayOrAll day ∉ validDays
  · simpa [enableBanner, h0] using h
  · by_cases hr : (srem st.disabled url).2 = 0
    · have hd0 : smem st.disabled url = false := (srem_snd_eq_zero st.disabled url).mp hr
      have hstate : (enableBanner st url day).1
          = ⟨st.active, st.dayRules, (srem st.disabled url).1⟩ := by
        by_cases hz : (zscore st.active url).isSome <;> simp [enableBanner, h0, hr, hz]
      rw [hstate]
      intro u
      exact consistent_after st url st.active (srem st.disabled url).1 h
        (Or.inr (smem_srem_self st.disabled url))
        (fun v hv => rfl)
        (fun v hv => smem_srem_other st.disabled url v hv) u
    · have hstate : (enableBanner st url day).1
          = ⟨(zadd1 st.active url (zcard st.active)).1,
             hset st.dayRules url (jsDayOrAll day), (srem st.disabled url).1⟩ := by
        simp [enableBanner, h0, hr]
      rw [hstate]
      intro u
      exact consistent_after st url (zadd1 st.active url (zcard st.active)).1
        (srem st.disabled url).1 h
        (Or.inr (smem_srem_self st.disabled url))
        (fun v hv => zscore_zadd1_other st.active url v (zcard st.active) hv)
        (fun v hv => smem_srem_other st.disabled url v hv) u

theorem updateDay_preserves_consistency (st : Store) (url : Url) (day : Option String)
    (h : Consistent st) : Consistent (updateDayBanner st url day).1 := by
  by_cases h0 : url = "" ∨ jsDayOrAll day ∉ validDays
  · simpa [updateDayBanner, h0] using h
  · cases hz : zscore st.active url with
    | none => simpa [updateDayBanner, h0, hz] using h
    | some s =>
      have hstate : (updateDayBanner st url day).1
          = ⟨st.active, hset st.dayRules url (jsDayOrAll day), st.disabled⟩ := by
        simp [updateDayBanner, h0, hz]
      rw [hstate]
      intro u
      exact h u

theorem destroy_preserves_consistency (st : Store) (url : Url) (media : String)
    (h : Consistent st) : Consistent (destroyBanner st url media).1 := by
  by_cases h0 : url = ""
  · simpa [destroyBanner, h0] using h
  · have hstate : (destroyBanner st url media).1
        = ⟨(zrem st.active url).1, (hdel st.dayRules url).1, (srem st.disabled url).1⟩ := by
      simp only [destroyBanner, if_neg h0]
      split
      · rfl
      · split
        · rfl
        · split
          · rfl
          · split <;> rfl
    rw [hstate]
    intro u
    exact consistent_after st url (zrem st.active url).1 (srem st.disabled url).1 h
      (Or.inl (zscore_zrem_self st.active url))
      (fun v hv => zscore_zrem_other st.active url v hv)
      (fun v hv => smem_srem_other st.disabled url v hv) u

theorem create_preserves_consistency (st : Store) (url : Url) (day : Option String)
    (h : Consistent st) (hfresh : smem st.disabled url = false) :
    Consistent (createBanner st url day).1 := by
  by_cases h0 : jsDayOrAll day ∉ validDays
  · simpa [createBanner, h0] using h
  · have hstate : (createBanner st url day).1
        = ⟨(zadd1 st.active url (zcard st.active)).1,
           hset st.dayRules url (jsDayOrAll day), st.disabled⟩ := by
      simp [createBanner, h0]
    rw [hstate]
    intro u
    exact consistent_after st url (zadd1 st.active url (zcard st.active)).1 st.disabled h
      (Or.inr hfresh)
      (fun v hv => zscore_zadd1_other st.active url v (zcard st.active) hv)
      (fun v hv => rfl) u

/-- C1 (amended): starting from a state where no url is both active and
disabled, every single registry operation except reorder preserves that
exclusivity — disable, enable, updateDay and destroy unconditionally, create
provided the freshly uploaded url is not sitting in the disabled set.
Reorder does not preserve it (see the counterexample). -/
theorem registry_ops_preserve_exclusivity (st : Store) (url : Url)
    (day : Option String) (media : String) (h : Consistent st) :
    Consistent (disableBanner st url).1 ∧
    Consistent (enableBanner st url day).1 ∧
    Consistent (updateDayBanner st url day).1 ∧
    Consistent (destroyBanner st url media).1 ∧
    (smem st.disabled url = false → Consistent (createBanner st url day).1) :=
  ⟨disable_preserves_consistency st url h,
   enable_preserves_consistency st url day h,
   updateDay_preserves_consistency st url day h,
   destroy_preserves_consistency st url media h,
   fun hfresh => create_preserves_consistency st url day h hfresh⟩

theorem registry_ops_preserve_exclusivity_witness :
    ¬(((zscore (disableBanner ⟨[(urlA, 0)], [(urlA, "ALL")], [urlB]⟩ urlA).1.active
          urlB).isSome = true) ∧
      smem (disableBanner ⟨[(urlA, 0)], [(urlA, "ALL")], [urlB]⟩ urlA).1.disabled
        urlB = true) := by
  have hcons : Consistent ⟨[(urlA, 0)], [(urlA, "ALL")], [urlB]⟩ := by
    intro u
    rintro ⟨h1, h2⟩
    by_cases hu : urlA = u
    · have h3 : urlB = u := by
        by_cases hb : urlB = u
        · exact hb
        · simp [smem, hb] at h2
      rw [← hu] at h3
      exact absurd h3 (by decide)
    · simp [zscore, hu] at h1
  have h := registry_ops_preserve_exclusivity ⟨[(urlA, 0)], [(urlA, "ALL")], [urlB]⟩
    urlA none "ok" hcons
  exact h.1 urlB

/-- C1 counterexample: from the reachable state obtained by create then
disable, a successful reorder naming the disabled url leaves that url a
member of both the active ordered-set and the disabled set at once, so the
claimed invariant fails after a reorder. -/
theorem reorder_breaks_exclusivity :
    (reorderBanners (disableBanner (createBanner Store.empty urlA none).1 urlA).1
         [urlA]).2 = ReorderOut.reordered 1 ∧
    (zscore (reorderBanners (disableBanner (createBanner Store.empty urlA none).1 urlA).1
         [urlA]).1.active urlA).isSome = true ∧
    smem (reorderBanners (disableBanner (createBanner Store.empty urlA none).1 urlA).1
         [urlA]).1.disabled urlA = true := by
  decide

/-- C2 (amended): destroy fails NotFound exactly when the removals from the
active ordered-set, the day-rule map and the disabled set all removed zero
entries; the metadata removals are applied unconditionally and never rolled
back, whatever the media store answers; every non-NotFound outcome is HTTP
200; a media result other than `ok` and `not found` is reported with its raw
status in the body, while a `not found` media result produces the plain
success body whose cloudinaryStatus field is the literal `ok` (the
explanatory `removed_from_redis_only` marker is only logged server-side). -/
theorem destroy_snd_of_absent (st : Store) (url : Url) (media : String) (h : url ≠ "")
    (ha : (zrem st.active url).2 = 0) (hb : (hdel st.dayRules url).2 = 0)
    (hc : (srem st.disabled url).2 = 0) :
    (destroyBanner st url media).2 = DestroyOut.notFound := by
  simp [destroyBanner, h, ha, hb, hc]

theorem destroy_snd_of_present (st : Store) (url : Url) (media : String) (h : url ≠ "")
    (hz : ¬((zrem st.active url).2 = 0 ∧ (hdel st.dayRules url).2 = 0 ∧
       (srem st.disabled url).2 = 0)) :
    (destroyBanner st url media).2 ≠ DestroyOut.notFound ∧
    (destroyBanner st url media).2.httpStatus = 200 ∧
    ((extractPublicIdFromUrl url).isSome = true →
       (media ≠ "ok" → media ≠ "not found" →
          (destroyBanner st url media).2 = DestroyOut.removedCloudError media) ∧
       (media = "not found" →
          (destroyBanner st url media).2
            = DestroyOut.removedOk
                ((zrem st.active url).2 + (srem st.disabled url).2) "ok")) := by
  have hzn : ¬((zrem st.active url).2 + (srem st.disabled url).2 = 0
      ∧ (hdel st.dayRules url).2 = 0) := by
    rintro ⟨hsum, hh⟩
    exact hz ⟨by omega, hh, by omega⟩
  have hrepr : (destroyBanner st url media).2
      = (match extractPublicIdFromUrl url with
         | none => DestroyOut.removedExtractFailed
             ((zrem st.active url).2 + (srem st.disabled url).2)
         | some _ =>
           if media = "not found" then
             DestroyOut.removedOk ((zrem st.active url).2 + (srem st.disabled url).2) "ok"
           else if media ≠ "ok" then DestroyOut.removedCloudError media
           else DestroyOut.removedOk
             ((zrem st.active url).2 + (srem st.disabled url).2) "ok") := by
    simp only [destroyBanner, if_neg h]
    rw [if_neg hzn]
    cases extractPublicIdFromUrl url with
    | none => rfl
    | some pid =>
      by_cases hm : media = "not found"
      · simp [hm]
      · by_cases hk : media = "ok" <;> simp [hm, hk]
  rw [hrepr]
  cases hx : extractPublicIdFromUrl url with
  | none =>
    refine ⟨fun hcc => DestroyOut.noConfusion hcc, rfl, ?_⟩
    intro hs
    simp at hs
  | some pid =>
    by_cases hm : media = "not found"
    · refine ⟨?_, ?_, ?_⟩
      · simp [hm]
      · simp [hm, DestroyOut.httpStatus]
      · intro _
        refine ⟨fun _ hnf2 => absurd hm hnf2, fun _ => by simp [hm]⟩
    · by_cases hk : media = "ok"
      · refine ⟨?_, ?_, ?_⟩
        · simp [hm, hk]
        · simp [hm, hk, DestroyOut.httpStatus]
        · intro _
          exact ⟨fun hko _ => absurd hk hko, fun hnf2 => absurd hnf2 hm⟩
      · refine ⟨?_, ?_, ?_⟩
        · simp [hm, hk]
        · simp [hm, hk, DestroyOut.httpStatus]
        · intro _
          exact ⟨fun _ _ => by simp [hm, hk], fun hnf2 => absurd hnf2 hm⟩

theorem destroy_notfound_iff_and_no_rollback (st : Store) (url : Url) (media : String)
    (h : url ≠ "") :
    ((destroyBanner st url media).2 = DestroyOut.notFound ↔
       ((zrem st.active url).2 = 0 ∧ (hdel st.dayRules url).2 = 0 ∧
        (srem st.disabled url).2 = 0)) ∧
    (destroyBanner st url media).1.active = (zrem st.active url).1 ∧
    (destroyBanner st url media).1.dayRules = (hdel st.dayRules url).1 ∧
    (destroyBanner st url media).1.disabled = (srem st.disabled url).1 ∧
    ((destroyBanner st url media).2 ≠ DestroyOut.notFound →
       (destroyBanner st url media).2.httpStatus = 200) ∧
    (¬((zrem st.active url).2 = 0 ∧ (hdel st.dayRules url).2 = 0 ∧
        (srem st.disabled url).2 = 0) →
       (extractPublicIdFromUrl url).isSome = true →
       (media ≠ "ok" → media ≠ "not found" →
          (destroyBanner st url media).2 = DestroyOut.removedCloudError media) ∧
       (media = "not found" →
          (destroyBanner st url media).2
            = DestroyOut.removedOk ((zrem st.active url).2 + (srem st.disabled url).2) "ok")) := by
  have hstate : (destroyBanner st url media).1
      = ⟨(zrem st.active url).1, (hdel st.dayRules url).1, (srem st.disabled url).1⟩ := by
    simp only [destroyBanner, if_neg h]
    split
    · rfl
    · split
      · rfl
      · split
        · rfl
        · split <;> rfl
  refine ⟨?_, by rw [hstate], by rw [hstate], by rw [hstate], ?_, ?_⟩
  · by_cases hz : (zrem st.active url).2 = 0 ∧ (hdel st.dayRules url).2 = 0
        ∧ (srem st.disabled url).2 = 0
    · rw [destroy_snd_of_absent st url media h hz.1 hz.2.1 hz.2.2]
      simp [hz]
    · have hp := destroy_snd_of_present st url media h hz
      constructor
      · intro hc
        exact absurd hc hp.1
      · intro hc
        exact absurd hc hz
  · intro hnf
    by_cases hz : (zrem st.active url).2 = 0 ∧ (hdel st.dayRules url).2 = 0
        ∧ (srem st.disabled url).2 = 0
    · exact absurd (destroy_snd_of_absent st url media h hz.1 hz.2.1 hz.2.2) hnf
    · exact (destroy_snd_of_present st url media h hz).2.1
  · intro hnz hex
    exact (destroy_snd_of_present st url media h hnz).2.2 hex

theorem destroy_notfound_iff_and_no_rollback_witness :
    ((destroyBanner ⟨[(urlA, 0)], [(urlA, "ALL")], []⟩ urlA "error").2
       = DestroyOut.removedCloudError "error") ∧
    (destroyBanner ⟨[(urlA, 0)], [(urlA, "ALL")], []⟩ urlA "error").1.active = [] ∧
    (destroyBanner ⟨[(urlA, 0)], [(urlA, "ALL")], []⟩ urlA "error").1.dayRules = [] ∧
    ((destroyBanner ⟨[], [], []⟩ urlA "ok").2 = DestroyOut.notFound) := by
  have h1 := destroy_notfound_iff_and_no_rollback ⟨[(urlA, 0)], [(urlA, "ALL")], []⟩
    urlA "error" (by decide)
  have h2 := destroy_notfound_iff_and_no_rollback (⟨[], [], []⟩ : Store)
    urlA "ok" (by decide)
  have hcl := (h1.2.2.2.2.2 (by decide) (by decide)).1 (by decide) (by decide)
  have ha := h1.2.1
  have hd := h1.2.2.1
  have hnf := h2.1.mpr (by decide)
  refine ⟨hcl, ?_, ?_, hnf⟩
  · rw [ha]; decide
  · rw [hd]; decide

/-- C2 counterexample: when the media store reports `not found`, the destroy
response is byte-for-byte the plain success response — status 200 and
cloudinaryStatus `ok`, identical to the reply after a successful media
delete — so no explanatory status reaches the caller on that path. -/
theorem destroy_media_not_found_reported_as_ok :
    destroyBanner ⟨[(urlA, 0)], [(urlA, "ALL")], []⟩ urlA "not found"
      = destroyBanner ⟨[(urlA, 0)], [(urlA, "ALL")], []⟩ urlA "ok" ∧
    (destroyBanner ⟨[(urlA, 0)], [(urlA, "ALL")], []⟩ urlA "not found").2
      = DestroyOut.removedOk 1 "ok" ∧
    (destroyBanner ⟨[(urlA, 0)], [(urlA, "ALL")], []⟩ urlA "not found").2.httpStatus
      = 200 := by
  decide

/-- The day rule the listing resolves for a url: the hash value when present
and truthy, `ALL` otherwise. -/
def dayRuleOf (st : Store) (u : Url) : String := jsOrAll (hget st.dayRules u)

/-- C4 (amended): the day-filtered listing returns exactly the active-set
members whose resolved day rule (default `ALL`) is `ALL` or equals the
weekday tag of the query instant, in ascending position-score order — but the
weekday tag of `GET /api/encarte` comes from `new Date().getDay()`, i.e. from
the server-local date (UTC instant plus server UTC offset), not from a fixed
documented timezone (see the counterexample). -/
theorem listing_filters_by_day_and_sorts (st : Store) (utc off : Int) :
    (∀ u, u ∈ apiGetEncarte st utc off ↔
       ((zscore st.active u).isSome = true ∧
        (dayRuleOf st u = "ALL" ∨ dayRuleOf st u = DAYS_MAP (jsGetDay utc off)))) ∧
    ((getActiveBannersOrdered st).filter
        (dayFilter (DAYS_MAP (jsGetDay utc off)))).Pairwise
      (fun a b => a.2.2 ≤ b.2.2) := by
  constructor
  · intro u
    constructor
    · intro hu
      simp only [apiGetEncarte, List.mem_map] at hu
      obtain ⟨b, hb, rfl⟩ := hu
      rcases List.mem_filter.mp hb with ⟨hbmem, hbf⟩
      simp only [getActiveBannersOrdered, List.mem_map] at hbmem
      obtain ⟨p, hp, rfl⟩ := hbmem
      constructor
      · exact (zscore_isSome_iff st.active p.1).mpr
          ⟨p.2, (mem_sortByScore p st.active).mp hp⟩
      · simp only [dayFilter, Bool.or_eq_true, beq_iff_eq] at hbf
        simpa [dayRuleOf] using hbf
    · rintro ⟨hsome, hday⟩
      obtain ⟨s, hs⟩ := (zscore_isSome_iff st.active u).mp hsome
      simp only [apiGetEncarte, List.mem_map]
      refine ⟨(u, dayRuleOf st u, s), List.mem_filter.mpr ⟨?_, ?_⟩, rfl⟩
      · simp only [getActiveBannersOrdered, List.mem_map]
        exact ⟨(u, s), (mem_sortByScore (u, s) st.active).mpr hs, by simp [dayRuleOf]⟩
      · simp only [dayFilter, Bool.or_eq_true, beq_iff_eq]
        exact hday
  · have h1 := sortByScore_pairwise st.active
    have h2 : ((sortByScore st.active).map
        (fun p => (p.1, jsOrAll (hget st.dayRules p.1), p.2))).Pairwise
        (fun a b => a.2.2 ≤ b.2.2) :=
      List.pairwise_map.mpr h1
    exact List.Pairwise.sublist (List.filter_sublist _) h2

theorem listing_filters_by_day_and_sorts_witness :
    urlA ∈ apiGetEncarte ⟨[(urlA, 0)], [], []⟩ 5820 0 ∧
    urlB ∉ apiGetEncarte ⟨[(urlA, 0)], [], []⟩ 5820 0 := by
  have h := listing_filters_by_day_and_sorts ⟨[(urlA, 0)], [], []⟩ 5820 0
  constructor
  · exact (h.1 urlA).mpr (by decide)
  · intro hc
    have := (h.1 urlB).mp hc
    revert this
    decide

/-- C4 counterexample: at one and the same UTC instant (Monday 01:00 UTC,
5820 minutes past the epoch) the listing of a Monday-only banner contains the
banner on a server at UTC offset 0 and omits it on a server at UTC offset
-180 — the weekday tag follows the server-local date, so it is not computed
in a fixed timezone. -/
theorem listing_depends_on_server_offset :
    apiGetEncarte ⟨[("u", 0)], [("u", "MON")], []⟩ 5820 0 = ["u"] ∧
    apiGetEncarte ⟨[("u", 0)], [("u", "MON")], []⟩ 5820 (-180) = [] ∧
    apiGetEncarte ⟨[("u", 0)], [("u", "MON")], []⟩ 5820 0
      ≠ apiGetEncarte ⟨[("u", 0)], [("u", "MON")], []⟩ 5820 (-180) := by
  decide

/-- C7 (amended): identifier extraction is a pure function that returns null
exactly when the configured folder segment cannot be located as the
next-to-last path segment (fewer than two segments, or a different folder
there); on every other url it returns the folder name joined with the last
segment truncated at its last dot — so when the last segment contains a dot
this is the base filename with the extension stripped, and when it contains
no dot the returned filename part is empty (not null, and not the untouched
base name). -/
theorem extract_locates_folder_and_strips_extension (url : String) :
    (extractPublicIdFromUrl url = none ↔
       ((splitOnChar '/' url.data).length < 2 ∨
        (splitOnChar '/' url.data).getD ((splitOnChar '/' url.data).length - 2) []
          ≠ CLOUDINARY_FOLDER.data)) ∧
    (2 ≤ (splitOnChar '/' url.data).length →
     (splitOnChar '/' url.data).getD ((splitOnChar '/' url.data).length - 2) []
       = CLOUDINARY_FOLDER.data →
       extractPublicIdFromUrl url
         = some (String.mk (CLOUDINARY_FOLDER.data
             ++ '/' :: takeToLastDot ((splitOnChar '/' url.data).getLastD []))) ∧
       (('.' ∈ (splitOnChar '/' url.data).getLastD []) →
          ∃ ext, ('.' ∉ ext) ∧
            (splitOnChar '/' url.data).getLastD []
              = takeToLastDot ((splitOnChar '/' url.data).getLastD []) ++ '.' :: ext) ∧
       (('.' ∉ (splitOnChar '/' url.data).getLastD []) →
          takeToLastDot ((splitOnChar '/' url.data).getLastD []) = [])) := by
  constructor
  · constructor
    · intro hnone
      by_cases h1 : (splitOnChar '/' url.data).length < 2
      · exact Or.inl h1
      · by_cases h2 : (splitOnChar '/' url.data).getD
            ((splitOnChar '/' url.data).length - 2) [] = CLOUDINARY_FOLDER.data
        · exfalso
          simp only [extractPublicIdFromUrl, if_neg h1] at hnone
          rw [if_neg (fun hc => hc h2)] at hnone
          exact Option.noConfusion hnone
        · exact Or.inr h2
    · intro hcase
      rcases hcase with h1 | h2
      · simp [extractPublicIdFromUrl, h1]
      · by_cases h1 : (splitOnChar '/' url.data).length < 2
        · simp [extractPublicIdFromUrl, h1]
        · simp only [extractPublicIdFromUrl, if_neg h1]
          rw [if_pos h2]
  · intro h1 h2
    have hlt : ¬(splitOnChar '/' url.data).length < 2 := Nat.not_lt.mpr h1
    refine ⟨?_, ?_, ?_⟩
    · simp only [extractPublicIdFromUrl, if_neg hlt]
      rw [if_neg (fun hc => hc h2), h2]
    · intro hdot
      exact takeToLastDot_decomp _ hdot
    · intro hdot
      exact takeToLastDot_of_no_dot _ hdot

theorem extract_locates_folder_and_strips_extension_witness :
    extractPublicIdFromUrl "http://x/banners_folder/a.png" = some "banners_folder/a" ∧
    extractPublicIdFromUrl "http://x/other/a.png" = none := by
  have h1 := (extract_locates_folder_and_strips_extension
    "http://x/banners_folder/a.png").2 (by decide) (by decide)
  have h2 := (extract_locates_folder_and_strips_extension
    "http://x/other/a.png").1.mpr (by decide)
  exact ⟨h1.1.trans (by decide), h2⟩

/-- C7 counterexample: on a url whose final segment has no dot the function
returns neither null nor the folder joined with the base filename — JS
`substring(0, lastIndexOf(.))` yields the empty string, so the result is the
folder name followed by a bare slash. -/
theorem extract_extensionless_url_not_null :
    extractPublicIdFromUrl "http://x/banners_folder/abc" = some "banners_folder/" ∧
    extractPublicIdFromUrl "http://x/banners_folder/abc" ≠ none ∧
    extractPublicIdFromUrl "http://x/banners_folder/abc" ≠ some "banners_folder/abc" := by
  decide

end EncartesAPI
